import Mathlib

/-!
Verification of the document-processing core of the languageservices
repository (YAML language server): expression resolution
(server/src/expressions/utils.ts, resolve.ts), secure include processing
(server/src/include.ts), the staged pipeline (server/src/server.ts,
parseYamlContent), the structural validator (server/src/types.ts,
isYamlWorkflowDocument) and the variable-environment reload handlers
(server.ts, onInitialized and onDidChangeWatchedFiles).

The JavaScript value universe reachable in this core (values produced by
the yaml parser and handled by the pipeline) is modelled by the inductive
type `Value` below: null, booleans, numbers, strings, arrays and plain
objects (association lists in insertion order, mirroring the key order
that for-in and Object.keys observe).  Numbers are modelled by `Int`:
the core performs no arithmetic, numbers only flow through and get
stringified.  Property access `result[index]` is modelled on the data
fragment: own properties of objects, elements of arrays, and the
character indexing of strings.  JavaScript additionally surfaces
prototype-inherited members on every base — `(5).toFixed` and
`(true).toString` are native functions, `"ab".length` is a number —
and those results fall outside this data universe; the model maps such
accesses to `undefined`.  No theorem below depends on their absence:
each statement either concerns the null case, which the source
short-circuits before any property access happens, or quantifies its
hypothesis and its conclusion through the same model functions, so the
two shift together.  Thrown JavaScript errors are modelled by `Except`
with the exact message strings of the source.
-/

namespace LangSrv

/-- A JSON/YAML-like JavaScript value: the graph type every function of
the core operates on.  Objects are association lists in key insertion
order. -/
inductive Value where
  | null : Value
  | bool : Bool → Value
  | num : Int → Value
  | str : String → Value
  | arr : List Value → Value
  | obj : List (String × Value) → Value
deriving Repr

/-- The variable environment: top-level keys of the *.vars.yaml file
mapped to their values (server.ts, `loadedVariables`). -/
abbrev Env := List (String × Value)

/-! ## Path Expression Evaluator — server/src/expressions/utils.ts -/

/-- JavaScript `s.trim()`: strip whitespace from both ends. -/
def jsTrim (s : String) : String :=
  String.mk (((s.data.dropWhile Char.isWhitespace).reverse.dropWhile
    Char.isWhitespace).reverse)

/-- JavaScript `s.endsWith(p)`. -/
def jsEndsWith (s p : String) : Bool :=
  p.data.isSuffixOf s.data

/-- The delimiter class of the regex used by `parseExpression`
(`split(/[.\[\]]+/)`): a dot or a square bracket. -/
def isDelim (c : Char) : Bool :=
  c = '.' || c = '[' || c = ']'

/-- Split a character list on (runs of) delimiters; empty pieces are kept
here and dropped by `parseExpression` (mirroring `filter(Boolean)`). -/
def splitOnDelims : List Char → List (List Char)
  | [] => [[]]
  | c :: rest =>
    if isDelim c then [] :: splitOnDelims rest
    else
      match splitOnDelims rest with
      | [] => [[c]]
      | s :: ss => (c :: s) :: ss

/-- `parseExpression(expr)` from expressions/utils.ts: trim, split on
runs of `.`, `[`, `]`, and drop empty segments. -/
def parseExpression (expr : String) : List String :=
  ((splitOnDelims (jsTrim expr).data).filter (· ≠ [])).map (fun cs => String.mk cs)

/-- The fragment of JavaScript `Number(key)` relevant to path segments:
`!isNaN(Number(key)) ? Number(key) : key` in `getValueByPath`.  Returns
`some n` when the trimmed key is an (optionally signed) run of decimal
digits — the integer literals that index arrays and strings — including
the empty/whitespace-only string, which `Number` maps to `0`.  Exotic
numeric forms (hex, exponent, fractional) are not modelled; they are
treated as string keys, which agrees with JavaScript own-property lookup
for the canonical forms that actually round-trip. -/
def digitsToNat (ds : List Char) : Nat :=
  ds.foldl (fun a c => 10 * a + (c.toNat - 48)) 0

def jsNumber (key : String) : Option Int :=
  match (jsTrim key).data with
  | [] => some 0
  | '-' :: ds => if ds ≠ [] && ds.all Char.isDigit then
      some (-(digitsToNat ds : Int)) else none
  | '+' :: ds => if ds ≠ [] && ds.all Char.isDigit then
      some ((digitsToNat ds : Int)) else none
  | ds => if ds.all Char.isDigit then
      some ((digitsToNat ds : Int)) else none

/-- One JavaScript property access `result[index]` as performed by
`getValueByPath`, restricted to the data fragment: numeric segments
index arrays and strings (and are canonicalised for object keys), all
other segments are own-property string keys.  `none` is JavaScript
`undefined`.  Prototype-inherited members — method properties such as
`toFixed` on numbers or `toString` on booleans, and `length` on strings
and arrays — are not part of the modelled value universe and map to
`none` here; no theorem in this file asserts that the source returns
`undefined` for them. -/
def indexValue (v : Value) (key : String) : Option Value :=
  match v, jsNumber key with
  | .obj l, some n => l.lookup (toString n)
  | .obj l, none => l.lookup key
  | .arr l, some n =>
    if h : 0 ≤ n ∧ n.toNat < l.length then some (l.get ⟨n.toNat, h.2⟩) else none
  | .arr _, none => none
  | .str s, some n =>
    if h : 0 ≤ n ∧ n.toNat < s.data.length then
      some (.str (String.mk [s.data.get ⟨n.toNat, h.2⟩])) else none
  | .str _, none => none
  | _, _ => none

/-- `getValueByPath(obj, path)` from expressions/utils.ts: walk the path
left to right; `undefined` (`none`) as soon as the current value is
`null`/`undefined` or the access yields `undefined`. -/
def getValueByPath (v : Value) : List String → Option Value
  | [] => some v
  | key :: rest =>
    match v with
    | .null => none
    | _ =>
      match indexValue v key with
      | none => none
      | some next => getValueByPath next rest

/-! ## Expression resolution — server/src/expressions/resolve.ts -/

/-- `resolveExpression(expr, vars)`: parse the expression; `undefined`
when the path is empty or its first segment is not a key of `vars`
(own-property membership models the `in` test on the plain vars object);
otherwise walk the rest of the path from that root. -/
def resolveExpression (expr : String) (vars : Env) : Option Value :=
  match parseExpression expr with
  | [] => none
  | k :: rest =>
    match vars.lookup k with
    | none => none
    | some root => getValueByPath root rest

/-- Join strings with a separator (`Array.prototype.join` /
`path` joining). -/
def joinWith (sep : String) : List String → String
  | [] => ""
  | [s] => s
  | s :: rest => s ++ sep ++ joinWith sep rest

mutual

/-- JavaScript `String(value)` for the modelled value universe:
`String` on the result of `resolveExpression` in `replacePlaceholders`.
Arrays stringify as `join(",")` with `null` elements becoming empty,
objects as `[object Object]`. -/
def jsString : Value → String
  | .null => "null"
  | .bool true => "true"
  | .bool false => "false"
  | .num n => toString n
  | .str s => s
  | .arr l => joinWith "," (jsStringElems l)
  | .obj _ => "[object Object]"

/-- Element stringification of `Array.prototype.join`: `null` (and
`undefined`) elements become the empty string. -/
def jsStringElems : List Value → List String
  | [] => []
  | .null :: rest => "" :: jsStringElems rest
  | v :: rest => jsString v :: jsStringElems rest

end

/-! ## Placeholder interpolation — `replacePlaceholders` in resolve.ts

The source replaces every match of the global regex `\$\x7b(.*?)\x7d`
inside a string.  The scanner below reproduces that regex exactly: a
match starts at a dollar-brace pair and its body is the shortest run of
characters up to a closing brace, where `.` does not cross a line break;
if no closing brace occurs before a line break, the match attempt fails
and scanning resumes at the next character. -/

/-- Scan for the non-greedy closer of a placeholder body: the characters
up to the first closing brace, failing on a line break (which `.` in the
source regex cannot match) or the end of the string. -/
def findCloser : List Char → Option (List Char × List Char)
  | [] => none
  | c :: rest =>
    if c = '\x7d' then some ([], rest)
    else if c = '\n' || c = '\r' then none
    else
      match findCloser rest with
      | none => none
      | some (body, after) => some (c :: body, after)

/-- Tokenise a string the way the replacement regex traverses it: each
token is either a literal character or the body of one placeholder
match. -/
def scanTokens : List Char → List (Sum Char String)
  | [] => []
  | '$' :: '\x7b' :: rest =>
    match h : findCloser rest with
    | some (body, after) => .inr (String.mk body) :: scanTokens after
    | none => .inl '$' :: scanTokens ('\x7b' :: rest)
  | c :: rest => .inl c :: scanTokens rest
termination_by l => l.length
decreasing_by
  · have key : ∀ (l body after : List Char),
        findCloser l = some (body, after) → after.length < l.length := by
      intro l
      induction l with
      | nil => intro body after h2; simp [findCloser] at h2
      | cons c rest ih =>
        intro body after h2
        simp only [findCloser] at h2
        split at h2
        · cases h2
          simp
        · split at h2
          · cases h2
          · revert h2
            split
            · intro h2
              cases h2
            · rename_i body0 after0 heq
              intro h2
              cases h2
              have := ih _ _ heq
              simp
              omega
    have := key _ _ _ h
    simp
    omega
  · simp
  · simp

/-- The placeholder bodies of a string, in match order: the expressions
the replacement callback receives. -/
def stringExprs (s : String) : List String :=
  (scanTokens s.data).filterMap (fun t =>
    match t with
    | .inr e => some e
    | .inl _ => none)

/-- The message of the error thrown by `replacePlaceholders` for an
unresolved expression. -/
def unresolvedMsg (expr : String) : String :=
  "Variable \"" ++ expr ++ "\" is not defined in context."

/-- Interpret the token stream: literal characters are copied, each
placeholder body is resolved and stringified, and the first body that
resolves to `undefined` aborts with the thrown error of the source. -/
def renderTokens (vars : Env) : List (Sum Char String) → Except String String
  | [] => .ok ""
  | .inl c :: rest =>
    match renderTokens vars rest with
    | .error e => .error e
    | .ok s => .ok (String.mk [c] ++ s)
  | .inr e :: rest =>
    match resolveExpression e vars with
    | none => .error (unresolvedMsg e)
    | some v =>
      match renderTokens vars rest with
      | .error m => .error m
      | .ok s => .ok (jsString v ++ s)

/-- The string case of `replacePlaceholders`:
`obj.replace(regex, callback)` with the throwing callback of the
source. -/
def interpolateString (vars : Env) (s : String) : Except String String :=
  renderTokens vars (scanTokens s.data)

mutual

/-- `replacePlaceholders(obj, vars)` from resolve.ts: rewrite every
string leaf by placeholder interpolation, rebuild objects (values only,
keys untouched) and arrays, and pass every other value through.  The
`Except` error is the thrown `Error`'s message. -/
def replacePlaceholders (v : Value) (vars : Env) : Except String Value :=
  match v with
  | .str s =>
    match interpolateString vars s with
    | .error e => .error e
    | .ok s2 => .ok (.str s2)
  | .obj l =>
    match replaceFields l vars with
    | .error e => .error e
    | .ok l2 => .ok (.obj l2)
  | .arr l =>
    match replaceElems l vars with
    | .error e => .error e
    | .ok l2 => .ok (.arr l2)
  | other => .ok other

/-- The `for (const key in obj)` loop of `replacePlaceholders`: each own
property value is interpolated, keys are copied verbatim. -/
def replaceFields (l : List (String × Value)) (vars : Env) :
    Except String (List (String × Value)) :=
  match l with
  | [] => .ok []
  | (k, v) :: rest =>
    match replacePlaceholders v vars with
    | .error e => .error e
    | .ok v2 =>
      match replaceFields rest vars with
      | .error e => .error e
      | .ok rest2 => .ok ((k, v2) :: rest2)

/-- The `obj.map(...)` branch of `replacePlaceholders` for arrays. -/
def replaceElems (l : List Value) (vars : Env) : Except String (List Value) :=
  match l with
  | [] => .ok []
  | v :: rest =>
    match replacePlaceholders v vars with
    | .error e => .error e
    | .ok v2 =>
      match replaceElems rest vars with
      | .error e => .error e
      | .ok rest2 => .ok (v2 :: rest2)

end

/-! ## POSIX path semantics used by server/src/include.ts

`include.ts` calls `path.resolve`, `path.normalize`, `path.extname` and
`path.sep` of Node.  The server runs these on POSIX semantics (separator
`/`), which the following definitions reproduce from Node's
`path.posix` implementation. -/

/-- Split a character list at every `/`. -/
def splitOnSlash : List Char → List (List Char)
  | [] => [[]]
  | c :: rest =>
    if c = '/' then [] :: splitOnSlash rest
    else
      match splitOnSlash rest with
      | [] => [[c]]
      | s :: ss => (c :: s) :: ss

/-- The segments of a path string, split at `/` (empty segments kept;
normalisation discards them). -/
def pathSegs (s : String) : List String :=
  (splitOnSlash s.data).map (fun cs => String.mk cs)

/-- One step of Node's `normalizeString`: skip empty and `.` segments,
let `..` pop the last real segment (or, above the root of a relative
path, accumulate when `allowAboveRoot`), push everything else. -/
def normStep (allowAboveRoot : Bool) (acc : List String) (seg : String) :
    List String :=
  if seg = "" || seg = "." then acc
  else if seg = ".." then
    if acc ≠ [] && acc.getLast? ≠ some ".." then acc.dropLast
    else if allowAboveRoot then acc ++ [".."]
    else acc
  else acc ++ [seg]

/-- Node `normalizeString` on a segment list. -/
def normSegs (allowAboveRoot : Bool) (segs : List String) : List String :=
  segs.foldl (normStep allowAboveRoot) []

/-- Node `path.posix.resolve(...paths)` with the process working
directory made explicit: take the suffix of arguments starting at the
last absolute one (falling back to `cwd`), join with `/`, and normalise
against the root. -/
def pickAbsSuffix (cwd : String) : List String → List String
  | [] => [cwd]
  | p :: rest =>
    if p = "" then pickAbsSuffix cwd rest
    else if p.data.head? = some '/' then [p]
    else p :: pickAbsSuffix cwd rest

def resolvePosix (cwd : String) (paths : List String) : String :=
  "/" ++ joinWith "/" (normSegs false (pathSegs
    (joinWith "/" (pickAbsSuffix cwd paths.reverse).reverse)))

/-- Node `path.posix.normalize(p)`. -/
def normalizePosix (p : String) : String :=
  if p = "" then "."
  else
    let isAbs := p.data.head? = some '/'
    let trailing := p.data.getLast? = some '/'
    let body := joinWith "/" (normSegs (!isAbs) (pathSegs p))
    if body = "" then
      if isAbs then "/" else if trailing then "./" else "."
    else
      let body := if trailing then body ++ "/" else body
      if isAbs then "/" ++ body else body

/-- Node `path.posix.extname(p)` restricted to the paths the resolver
produces (no trailing slash): the suffix of the basename from its last
dot, empty when the basename has no dot, hides no dot at position 0,
and is not `..`. -/
def lastDotSuffix : List Char → Option (List Char)
  | [] => none
  | c :: rest =>
    match lastDotSuffix rest with
    | some suf => some suf
    | none => if c = '.' then some (c :: rest) else none

def extname (p : String) : String :=
  let base := (pathSegs p).getLastD ""
  if base = ".." then ""
  else
    match lastDotSuffix base.data with
    | none => ""
    | some suf => if suf.length = base.data.length then "" else String.mk suf

/-- JavaScript `a.startsWith(b)` (on our string model). -/
def jsStartsWith (s p : String) : Bool :=
  p.data.isPrefixOf s.data

/-! ## Secure include resolver — server/src/include.ts -/

/-- `isIncludeDirective(node)`: a non-array object whose single own key
is `include` with a string value. -/
def isIncludeDirective : Value → Bool
  | .obj l =>
    l.length = 1 &&
      (match l.lookup "include" with
       | some (.str _) => true
       | _ => false)
  | _ => false

/-- The `include` path of a directive (used only for error messages,
where the source interpolates `node.include`). -/
def includePathOf (l : List (String × Value)) : String :=
  match l.lookup "include" with
  | some (.str s) => s
  | _ => ""

/-- The two failures of `validateStaticContent`, with the exact thrown
message reconstructable via `StaticError.message`. -/
inductive StaticError where
  | placeholderInIncludedFile (leaf : String) : StaticError
  | nestedIncludeFound (path : String) : StaticError
deriving Repr, DecidableEq

def StaticError.message : StaticError → String
  | .placeholderInIncludedFile leaf => "Variable placeholder found: " ++ leaf
  | .nestedIncludeFound path => "Include directive found: " ++ path

/-- The `includes("$\x7b")` test of `validateStaticContent`. -/
def containsSub (pat : List Char) : List Char → Bool
  | [] => pat.isEmpty
  | c :: rest => pat.isPrefixOf (c :: rest) || containsSub pat rest

def hasDollarBrace (s : String) : Bool :=
  containsSub ['$', '\x7b'] s.data

mutual

/-- `validateStaticContent(node)` from include.ts: a string leaf
containing the interpolation marker fails, a node that is itself an
include directive fails, everything else recurses (arrays first, then
the directive test, then object fields in key order). -/
def validateStaticContent : Value → Except StaticError Unit
  | .str s =>
    if hasDollarBrace s then .error (.placeholderInIncludedFile s) else .ok ()
  | .null => .ok ()
  | .bool _ => .ok ()
  | .num _ => .ok ()
  | .arr l => validateStaticElems l
  | .obj l =>
    if isIncludeDirective (.obj l) then
      .error (.nestedIncludeFound (includePathOf l))
    else validateStaticFields l

def validateStaticElems : List Value → Except StaticError Unit
  | [] => .ok ()
  | v :: rest =>
    match validateStaticContent v with
    | .error e => .error e
    | .ok _ => validateStaticElems rest

def validateStaticFields : List (String × Value) → Except StaticError Unit
  | [] => .ok ()
  | (_, v) :: rest =>
    match validateStaticContent v with
    | .error e => .error e
    | .ok _ => validateStaticFields rest

end

/-- The failures of `loadAndValidateIncludedContent`, with messages per
`IncludeError.message`.  `yamlParseFailure` models the yaml library
throwing out of `parse` (uncaught in include.ts, so it propagates with
the library's own message). -/
inductive IncludeError where
  | securityViolation (filepath : String) : IncludeError
  | includeNotFound (filepath : String) : IncludeError
  | yamlParseFailure (msg : String) : IncludeError
  | staticViolation (e : StaticError) : IncludeError
deriving Repr, DecidableEq

def IncludeError.message : IncludeError → String
  | .securityViolation filepath =>
    "Security violation: Cannot include files outside the workspace. " ++
      "Attempted to access: " ++ filepath
  | .includeNotFound filepath => "Include file not found: " ++ filepath
  | .yamlParseFailure msg => msg
  | .staticViolation e => e.message

/-- The filesystem as `loadAndValidateIncludedContent` observes it:
`existsSync` is `(fs p).isSome` and `readFileSync` is the content.  The
yaml library's `parse` is the `parseYaml` parameter (external to the
repository). -/
abbrev FileSys := String → Option String

/-- The source's `fullPath` local: `path.resolve(workspaceRoot,
filepath)` where `workspaceRoot` is `path.resolve` of the base
directory path. -/
def includeFullPath (filepath baseDirPath : String) : String :=
  resolvePosix "/" [resolvePosix "/" [baseDirPath], filepath]

/-- The security check of `loadAndValidateIncludedContent`, packaged:
the workspace root and the requested full path are normalised, and the
request is outside the workspace exactly when the normalised full path
does not start with the normalised root followed by the separator and
is not equal to the normalised root. -/
def outsideWorkspace (filepath baseDirPath : String) : Bool :=
  !(jsStartsWith (normalizePosix (includeFullPath filepath baseDirPath))
      (normalizePosix (resolvePosix "/" [baseDirPath]) ++ "/")) &&
    normalizePosix (includeFullPath filepath baseDirPath) !=
      normalizePosix (resolvePosix "/" [baseDirPath])

/-- `loadAndValidateIncludedContent(filepath, baseDir)` from include.ts.
`baseDirPath` is the filesystem path of the base directory — the source
first converts its `baseDir` file URL via `url.fileURLToPath`, an
input-boundary conversion this model takes as already done.  The
workspace root is `path.resolve` of it, the requested file is resolved
against the root, both are normalised, and the confinement check
rejects any resolved path that neither equals the root nor extends it
past a separator; then existence is checked, `.yaml` files (by
lower-cased extension) are parsed and statically validated, and any
other extension yields `null`. -/
def loadAndValidateIncludedContent (parseYaml : String → Except String Value)
    (fs : FileSys) (filepath : String) (baseDirPath : String) :
    Except IncludeError Value :=
  if outsideWorkspace filepath baseDirPath then
    .error (.securityViolation filepath)
  else
    match fs (includeFullPath filepath baseDirPath) with
    | none => .error (.includeNotFound filepath)
    | some fileContent =>
      if (extname (includeFullPath filepath baseDirPath)).toLower = ".yaml" then
        match parseYaml fileContent with
        | .error m => .error (.yamlParseFailure m)
        | .ok parsedContent =>
          match validateStaticContent parsedContent with
          | .error e => .error (.staticViolation e)
          | .ok _ => .ok parsedContent
      else .ok .null

mutual

/-- `processIncludes(node, baseDir)` from include.ts: leaves pass
through, arrays map element-wise, an include directive is replaced
wholesale by the loaded file content, any other object recurses over
its values preserving keys. -/
def processIncludes (parseYaml : String → Except String Value) (fs : FileSys)
    (v : Value) (baseDirPath : String) : Except IncludeError Value :=
  match v with
  | .null => .ok .null
  | .bool b => .ok (.bool b)
  | .num n => .ok (.num n)
  | .str s => .ok (.str s)
  | .arr l =>
    match processIncludesElems parseYaml fs l baseDirPath with
    | .error e => .error e
    | .ok l2 => .ok (.arr l2)
  | .obj l =>
    if isIncludeDirective (.obj l) then
      loadAndValidateIncludedContent parseYaml fs (includePathOf l) baseDirPath
    else
      match processIncludesFields parseYaml fs l baseDirPath with
      | .error e => .error e
      | .ok l2 => .ok (.obj l2)

def processIncludesElems (parseYaml : String → Except String Value)
    (fs : FileSys) (l : List Value) (baseDirPath : String) :
    Except IncludeError (List Value) :=
  match l with
  | [] => .ok []
  | v :: rest =>
    match processIncludes parseYaml fs v baseDirPath with
    | .error e => .error e
    | .ok v2 =>
      match processIncludesElems parseYaml fs rest baseDirPath with
      | .error e => .error e
      | .ok rest2 => .ok (v2 :: rest2)

def processIncludesFields (parseYaml : String → Except String Value)
    (fs : FileSys) (l : List (String × Value)) (baseDirPath : String) :
    Except IncludeError (List (String × Value)) :=
  match l with
  | [] => .ok []
  | (k, v) :: rest =>
    match processIncludes parseYaml fs v baseDirPath with
    | .error e => .error e
    | .ok v2 =>
      match processIncludesFields parseYaml fs rest baseDirPath with
      | .error e => .error e
      | .ok rest2 => .ok ((k, v2) :: rest2)

end

/-! ## Structural validation — server/src/types.ts -/

/-- `isYamlWorkflowDocument(obj)` from types.ts: any non-null object
(arrays included, on which both property reads give `undefined`), where
a present `steps` must be an array and a present `variables` must be a
non-null non-array object. -/
def isYamlWorkflowDocument : Value → Bool
  | .arr _ => true
  | .obj l =>
    (match l.lookup "steps" with
     | none => true
     | some (.arr _) => true
     | some _ => false) &&
    (match l.lookup "variables" with
     | none => true
     | some (.obj _) => true
     | some _ => false)
  | _ => false

/-! ## Document pipeline — `parseYamlContent` in server/src/server.ts -/

/-- The result type of the pipeline (`ParseResult` in types.ts):
exactly one of `success` with the final graph or `failure` with the
phase tag and message. -/
inductive ParseResult where
  | success (data : Value) : ParseResult
  | failure (phase : String) (error : String) : ParseResult
deriving Repr

/-- The stage-4 failure message of `parseYamlContent`. -/
def validationFailureMsg : String :=
  "Document structure is invalid. Expected a workflow document with " ++
    "optional \"steps\" array."

/-- `parseYamlContent(content, docUri)` from server.ts: phase 1 parses
the raw text with the yaml library (`parseYaml`, external), phase 2
interpolates placeholders against the loaded variable environment,
phase 3 processes includes anchored at the document's directory
(`docDirPath` is `path.dirname(docUri)` converted to a filesystem path,
the conversion the source performs inside include.ts via
`url.fileURLToPath`), phase 4 checks the workflow shape.  Each phase's
failure is returned with its tag, wrapping the caught message the way
the source does.  The source's final catch-all for unexpected errors is
unreachable here because every modelled phase returns rather than
throws. -/
def parseYamlContent (parseYaml : String → Except String Value) (fs : FileSys)
    (loadedVariables : Env) (content : String) (docDirPath : String) :
    ParseResult :=
  match parseYaml content with
  | .error e => .failure "parsing" ("YAML syntax error: " ++ e)
  | .ok yamlData =>
    match replacePlaceholders yamlData loadedVariables with
    | .error e => .failure "variable-replacement" ("Variable resolution error: " ++ e)
    | .ok replacedData =>
      match processIncludes parseYaml fs replacedData docDirPath with
      | .error e =>
        .failure "include-processing" ("Include processing error: " ++ e.message)
      | .ok parsedContent =>
        if isYamlWorkflowDocument parsedContent then .success parsedContent
        else .failure "validation" validationFailureMsg

/-! ## Variable environment lifecycle — server/src/server.ts

The two places that write `loadedVariables`, modelled as state
transformers over the environment.  The filesystem reads and the yaml
parse are bundled into `Except`-valued parameters: the handlers only
branch on whether the combined read-and-parse threw. -/

/-- The variables loading of the `onInitialized` handler: list the
workspace folder, take the first `*.vars.yaml` match, read and parse
it; no match yields the empty environment, and any thrown error (the
catch block) resets the environment to the empty map. -/
def onInitializedLoadVars (listing : Except String (List String))
    (readParse : String → Except String Env) : Env :=
  match listing with
  | .error _ => []
  | .ok files =>
    match files.filter (fun f => jsEndsWith f ".vars.yaml") with
    | [] => []
    | f :: _ =>
      match readParse f with
      | .ok e => e
      | .error _ => []

/-- The `onDidChangeWatchedFiles` handler: fold over the change events;
a created (type 1) or changed (type 2) event for a `*.vars.yaml` uri
re-reads and re-parses the file and replaces the environment wholesale
on success, while a thrown error (the catch block logs and continues)
leaves the current environment in place. -/
def onDidChangeWatchedFiles (readParse : String → Except String Env)
    (current : Env) (changes : List (Nat × String)) : Env :=
  changes.foldl (fun env change =>
    if (change.1 = 1 || change.1 = 2) && jsEndsWith change.2 ".vars.yaml" then
      match readParse change.2 with
      | .ok e => e
      | .error _ => env
    else env) current

/-! ## Auxiliary predicates used to state the claims -/

/-- An indexable structure in the sense of spec §4.1: a mapping or a
sequence. -/
def isIndexableStructure : Value → Bool
  | .arr _ => true
  | .obj _ => true
  | _ => false

mutual

/-- A graph is placeholder-free when no string leaf contains a match of
the placeholder pattern (spec §8, idempotence premise). -/
def placeholderFree : Value → Bool
  | .str s => (stringExprs s).isEmpty
  | .arr l => placeholderFreeElems l
  | .obj l => placeholderFreeFields l
  | .null => true
  | .bool _ => true
  | .num _ => true

def placeholderFreeElems : List Value → Bool
  | [] => true
  | v :: rest => placeholderFree v && placeholderFreeElems rest

def placeholderFreeFields : List (String × Value) → Bool
  | [] => true
  | (_, v) :: rest => placeholderFree v && placeholderFreeFields rest

end

mutual

/-- Some `$\x7bexpr\x7d` occurrence inside some string leaf resolves to
`undefined` in the given environment (the failure premise of C3). -/
def hasUnresolved (vars : Env) : Value → Bool
  | .str s => (stringExprs s).any (fun e => (resolveExpression e vars).isNone)
  | .arr l => hasUnresolvedElems vars l
  | .obj l => hasUnresolvedFields vars l
  | .null => false
  | .bool _ => false
  | .num _ => false

def hasUnresolvedElems (vars : Env) : List Value → Bool
  | [] => false
  | v :: rest => hasUnresolved vars v || hasUnresolvedElems vars rest

def hasUnresolvedFields (vars : Env) : List (String × Value) → Bool
  | [] => false
  | (_, v) :: rest => hasUnresolved vars v || hasUnresolvedFields vars rest

end

mutual

/-- Some string leaf of the graph contains the interpolation marker
(C4's first failure condition). -/
def hasPlaceholderLeaf : Value → Bool
  | .str s => hasDollarBrace s
  | .arr l => hasPlaceholderLeafElems l
  | .obj l => hasPlaceholderLeafFields l
  | .null => false
  | .bool _ => false
  | .num _ => false

def hasPlaceholderLeafElems : List Value → Bool
  | [] => false
  | v :: rest => hasPlaceholderLeaf v || hasPlaceholderLeafElems rest

def hasPlaceholderLeafFields : List (String × Value) → Bool
  | [] => false
  | (_, v) :: rest => hasPlaceholderLeaf v || hasPlaceholderLeafFields rest

end

mutual

/-- Some node of the graph (the node itself included) is an include
directive (C4's second failure condition). -/
def hasDirectiveNode : Value → Bool
  | .str _ => false
  | .arr l => hasDirectiveNodeElems l
  | .obj l => isIncludeDirective (.obj l) || hasDirectiveNodeFields l
  | .null => false
  | .bool _ => false
  | .num _ => false

def hasDirectiveNodeElems : List Value → Bool
  | [] => false
  | v :: rest => hasDirectiveNode v || hasDirectiveNodeElems rest

def hasDirectiveNodeFields : List (String × Value) → Bool
  | [] => false
  | (_, v) :: rest => hasDirectiveNode v || hasDirectiveNodeFields rest

end

/-- The result is the placeholder-tagged failure (for stating C4). -/
def isPlaceholderErr : Except StaticError Unit → Bool
  | .error (.placeholderInIncludedFile _) => true
  | _ => false

/-- The result is the nested-include-tagged failure (for stating C4). -/
def isNestedErr : Except StaticError Unit → Bool
  | .error (.nestedIncludeFound _) => true
  | _ => false

/-- Whether an `Except` result is a success (for stating C10). -/
def exceptOk {ε α : Type} : Except ε α → Bool
  | .ok _ => true
  | .error _ => false

/-- A relative path of `k` parent-directory steps followed by a suffix:
the `../../etc/passwd` family of spec §8. -/
def dotsPath : Nat → String → String
  | 0, suffix => suffix
  | k + 1, suffix => "../" ++ dotsPath k suffix

/-! # Theorems -/

/-- Custom structural induction principle for `Value` giving induction
hypotheses for the members of nested lists. -/
theorem Value.inductionOn {P : Value → Prop}
    (hnull : P .null) (hbool : ∀ b, P (.bool b)) (hnum : ∀ n, P (.num n))
    (hstr : ∀ s, P (.str s))
    (harr : ∀ l, (∀ v ∈ l, P v) → P (.arr l))
    (hobj : ∀ l, (∀ p ∈ l, P p.2) → P (.obj l)) : ∀ v, P v
  | .null => hnull
  | .bool b => hbool b
  | .num n => hnum n
  | .str s => hstr s
  | .arr l => harr l (fun v hv =>
      have : sizeOf v < 1 + sizeOf l := by
        have h1 := List.sizeOf_lt_of_mem hv
        omega
      Value.inductionOn hnull hbool hnum hstr harr hobj v)
  | .obj l => hobj l (fun p hp =>
      have : sizeOf p.2 < 1 + sizeOf l := by
        have h1 := List.sizeOf_lt_of_mem hp
        have h2 : sizeOf p.2 < sizeOf p := by
          rcases p with ⟨a, b⟩
          simp only [Prod.mk.sizeOf_spec]
          omega
        omega
      Value.inductionOn hnull hbool hnum hstr harr hobj p.2)
termination_by v => sizeOf v

/-! ## C6 — resolution on non-indexable values -/

/-- Walking a concatenated path is walking the prefix and continuing
from its result. -/
theorem getValueByPath_append : ∀ (p1 : List String) (root : Value)
    (p2 : List String),
    getValueByPath root (p1 ++ p2) =
      (match getValueByPath root p1 with
       | none => none
       | some v => getValueByPath v p2) := by
  intro p1
  induction p1 with
  | nil =>
    intro root p2
    rfl
  | cons key rest ih =>
    intro root p2
    cases root with
    | null => rfl
    | bool b =>
      cases hidx : indexValue (Value.bool b) key with
      | none => simp only [List.cons_append, getValueByPath, hidx]
      | some next =>
        simp only [List.cons_append, getValueByPath, hidx]
        exact ih next p2
    | num n =>
      cases hidx : indexValue (Value.num n) key with
      | none => simp only [List.cons_append, getValueByPath, hidx]
      | some next =>
        simp only [List.cons_append, getValueByPath, hidx]
        exact ih next p2
    | str s =>
      cases hidx : indexValue (Value.str s) key with
      | none => simp only [List.cons_append, getValueByPath, hidx]
      | some next =>
        simp only [List.cons_append, getValueByPath, hidx]
        exact ih next p2
    | arr l =>
      cases hidx : indexValue (Value.arr l) key with
      | none => simp only [List.cons_append, getValueByPath, hidx]
      | some next =>
        simp only [List.cons_append, getValueByPath, hidx]
        exact ih next p2
    | obj l =>
      cases hidx : indexValue (Value.obj l) key with
      | none => simp only [List.cons_append, getValueByPath, hidx]
      | some next =>
        simp only [List.cons_append, getValueByPath, hidx]
        exact ih next p2

/-- C6 (amended): during resolution of the segments after the first, a
current value that is `null`/`undefined` makes the whole resolution
yield `undefined` immediately — directly, and whenever any prefix of
the path lands on `null` with segments remaining — before any property
access is attempted; the model functions are total, so resolution never
throws.  (The original claim extended the immediate-`undefined`
guarantee to every non-mapping, non-sequence value; that fails on the
program: a string is indexed character-wise, see
`getValueByPath_string_indexing_cex`, and JavaScript surfaces
prototype-inherited members such as `toFixed` on numbers and `toString`
on booleans, which lie outside this model.) -/
theorem getValueByPath_null_short_circuit :
    (∀ (key : String) (rest : List String),
      getValueByPath Value.null (key :: rest) = none) ∧
    (∀ (root : Value) (p1 p2 : List String),
      getValueByPath root p1 = some Value.null → p2 ≠ [] →
      getValueByPath root (p1 ++ p2) = none) := by
  constructor
  · intro key rest
    rfl
  · intro root p1 p2 h1 h2
    rw [getValueByPath_append, h1]
    match p2, h2 with
    | key :: rest, _ => rfl

/-- C6 witness: a path whose first segment lands on an explicit `null`
resolves to `undefined` once a further segment remains. -/
theorem getValueByPath_null_short_circuit_witness :
    getValueByPath (Value.obj [("user", Value.null)])
      (["user"] ++ ["name"]) = none :=
  getValueByPath_null_short_circuit.2 (Value.obj [("user", Value.null)])
    ["user"] ["name"] rfl (List.cons_ne_nil _ _)

/-- C6 counterexample: a string is not a mapping or a sequence, yet
resolving a numeric segment against it yields a character rather than
`undefined` (JavaScript string indexing through `result[index]` in
`getValueByPath`). -/
theorem getValueByPath_string_indexing_cex :
    isIndexableStructure (Value.str "ab") = false ∧
    resolveExpression "x[0]" [("x", Value.str "ab")] = some (Value.str "a") := by
  constructor
  · rfl
  · rfl

/-! ## C7 — the include-directive discriminator -/

/-- C7: `isIncludeDirective(v)` is true exactly when `v` is a non-array
object whose single own key is `include` with a string value; an object
with additional keys, or an `include` key with a non-string value, is
never classified as a directive. -/
theorem isIncludeDirective_characterization (v : Value) :
    isIncludeDirective v = true ↔
      ∃ s, v = Value.obj [("include", Value.str s)] := by
  constructor
  · intro h
    cases v with
    | obj l =>
      match l with
      | [] => simp [isIncludeDirective] at h
      | [(k, w)] =>
        simp only [isIncludeDirective, List.length_cons, List.length_nil,
          List.lookup] at h
        by_cases hk : ("include" : String) = k
        · subst hk
          simp only [beq_self_eq_true] at h
          match w with
          | .str s => exact ⟨s, rfl⟩
          | .null | .bool _ | .num _ | .arr _ | .obj _ => simp at h
        · rw [beq_eq_false_iff_ne.mpr hk] at h
          simp at h
      | (k1, w1) :: (k2, w2) :: rest => simp [isIncludeDirective] at h
    | null => simp [isIncludeDirective] at h
    | bool b => simp [isIncludeDirective] at h
    | num n => simp [isIncludeDirective] at h
    | str s => simp [isIncludeDirective] at h
    | arr l => simp [isIncludeDirective] at h
  · rintro ⟨s, rfl⟩
    simp [isIncludeDirective, List.lookup]

/-- C7 witness: the spec's positive example, through the
characterisation. -/
theorem isIncludeDirective_characterization_witness :
    isIncludeDirective (Value.obj [("include", Value.str "f.yaml")]) = true :=
  (isIncludeDirective_characterization _).mpr ⟨"f.yaml", rfl⟩

/-! ## C5 — variable environment reloads -/

/-- C5 (amended): a successful reload — initial or change-triggered —
replaces the environment wholesale (no merge with the previous map).  A
failed initial load (`onInitialized`) resets the environment to the
empty map; a failed change-triggered reload (`onDidChangeWatchedFiles`),
however, leaves the previous environment in place rather than resetting
it to empty. -/
theorem varsReload_behavior :
    (∀ (readParse : String → Except String Env) (current : Env) (t : Nat)
        (uri : String) (e : Env),
      (t = 1 ∨ t = 2) → jsEndsWith uri ".vars.yaml" = true →
      readParse uri = Except.ok e →
      onDidChangeWatchedFiles readParse current [(t, uri)] = e) ∧
    (∀ (readParse : String → Except String Env) (current : Env) (t : Nat)
        (uri : String) (m : String),
      (t = 1 ∨ t = 2) → jsEndsWith uri ".vars.yaml" = true →
      readParse uri = Except.error m →
      onDidChangeWatchedFiles readParse current [(t, uri)] = current) ∧
    (∀ (readParse : String → Except String Env) (m : String),
      onInitializedLoadVars (Except.error m) readParse = []) ∧
    (∀ (readParse : String → Except String Env) (files : List String)
        (f : String) (rest : List String) (m : String),
      files.filter (fun s => jsEndsWith s ".vars.yaml") = f :: rest →
      readParse f = Except.error m →
      onInitializedLoadVars (Except.ok files) readParse = []) := by
  refine ⟨?_, ?_, ?_, ?_⟩
  · intro readParse current t uri e ht hu hr
    simp only [onDidChangeWatchedFiles, List.foldl]
    rcases ht with rfl | rfl <;> simp [hu, hr]
  · intro readParse current t uri m ht hu hr
    simp only [onDidChangeWatchedFiles, List.foldl]
    rcases ht with rfl | rfl <;> simp [hu, hr]
  · intro readParse m
    rfl
  · intro readParse files f rest m hfilter hr
    simp [onInitializedLoadVars, hfilter, hr]

/-- C5 witness: a successful change-triggered reload replaces the
environment wholesale. -/
theorem varsReload_behavior_witness :
    onDidChangeWatchedFiles (fun _ => Except.ok [("b", Value.num 2)])
      [("a", Value.num 1)] [(2, "file:///ws/x.vars.yaml")] =
      [("b", Value.num 2)] :=
  varsReload_behavior.1 _ _ 2 _ _ (Or.inr rfl) rfl rfl

/-- C5 counterexample: a failed change-triggered reload keeps the stale
environment instead of resetting it to the empty map as the claim
states. -/
theorem varsReload_failed_keeps_stale_cex :
    onDidChangeWatchedFiles (fun _ => Except.error "parse failure")
      [("a", Value.num 1)] [(2, "file:///ws/x.vars.yaml")] =
      [("a", Value.num 1)] ∧
    ([("a", Value.num 1)] : Env) ≠ ([] : Env) := by
  constructor
  · rfl
  · exact List.cons_ne_nil _ _

/-! ## Interpolation lemmas (C3, C8, C10) -/

/-- Unfolding equation: the scanner on the empty stream. -/
theorem scanTokens_eq_nil : scanTokens [] = [] :=
  scanTokens.eq_1

/-- Unfolding equation: a placeholder opener with a closer in reach
produces one body token. -/
theorem scanTokens_eq_dollar {rest body after : List Char}
    (hfc : findCloser rest = some (body, after)) :
    scanTokens ('$' :: '\x7b' :: rest) =
      .inr (String.mk body) :: scanTokens after := by
  rw [scanTokens.eq_2]
  split
  · rename_i b a heq
    rw [hfc] at heq
    cases heq
    rfl
  · rename_i heq
    rw [hfc] at heq
    cases heq

/-- Unfolding equation: a placeholder opener with no closer in reach is
copied as a literal dollar. -/
theorem scanTokens_eq_dollar_none {rest : List Char}
    (hfc : findCloser rest = none) :
    scanTokens ('$' :: '\x7b' :: rest) =
      .inl '$' :: scanTokens ('\x7b' :: rest) := by
  rw [scanTokens.eq_2]
  split
  · rename_i b a heq
    rw [hfc] at heq
    cases heq
  · rfl

/-- Unfolding equation: any character that does not open a placeholder
is copied as a literal. -/
theorem scanTokens_eq_step (c : Char) (rest : List Char)
    (hne : ∀ r : List Char, c = '$' → rest = '\x7b' :: r → False) :
    scanTokens (c :: rest) = .inl c :: scanTokens rest :=
  scanTokens.eq_3 c rest hne

/-- A string without a dollar sign scans to pure literals. -/
theorem scanTokens_no_dollar (l : List Char) (h : '$' ∉ l) :
    scanTokens l = l.map Sum.inl := by
  induction l with
  | nil => exact scanTokens_eq_nil
  | cons c rest ih =>
    have hc : c ≠ '$' := fun hcc => h (hcc ▸ List.mem_cons_self c rest)
    rw [scanTokens_eq_step c rest (fun r hcd _ => hc hcd)]
    rw [ih (fun hm => h (List.mem_cons_of_mem c hm))]
    rfl

/-- A string without a dollar sign has no placeholder expressions. -/
theorem stringExprs_no_dollar (s : String) (h : '$' ∉ s.data) :
    stringExprs s = [] := by
  unfold stringExprs
  rw [scanTokens_no_dollar s.data h]
  simp

/-- A token stream with no placeholder bodies is the literal character
stream. -/
theorem scanTokens_no_inr : ∀ l : List Char,
    (scanTokens l).filterMap (fun t =>
      match t with
      | .inr e => some e
      | .inl _ => none) = ([] : List String) →
    scanTokens l = l.map Sum.inl := by
  intro l
  induction l using scanTokens.induct with
  | case1 =>
    intro _
    exact scanTokens_eq_nil
  | case2 rest body after hfc ih =>
    intro h
    rw [scanTokens_eq_dollar hfc] at h
    simp at h
  | case3 rest hfc ih =>
    intro h
    rw [scanTokens_eq_dollar_none hfc] at h ⊢
    simp only [List.filterMap_cons] at h
    rw [ih h]
    simp
  | case4 c rest hne ih =>
    intro h
    rw [scanTokens_eq_step c rest hne] at h ⊢
    simp only [List.filterMap_cons] at h
    rw [ih h]
    simp

/-- Rendering a purely literal token stream reproduces the string. -/
theorem renderTokens_all_inl (vars : Env) : ∀ l : List Char,
    renderTokens vars (l.map Sum.inl) = .ok (String.mk l) := by
  intro l
  induction l with
  | nil => rfl
  | cons c rest ih =>
    simp only [List.map_cons, renderTokens, ih]
    rfl

/-- A string with no placeholder match interpolates to itself. -/
theorem interpolateString_id (vars : Env) (s : String)
    (h : stringExprs s = []) : interpolateString vars s = .ok s := by
  unfold interpolateString
  unfold stringExprs at h
  rw [scanTokens_no_inr s.data h, renderTokens_all_inl]

/-- List-level helper for C8: elements that interpolate to themselves
make the array map the identity. -/
theorem replaceElems_ok_of_free (vars : Env) : ∀ l : List Value,
    (∀ v ∈ l, placeholderFree v = true → replacePlaceholders v vars = .ok v) →
    placeholderFreeElems l = true → replaceElems l vars = .ok l := by
  intro l
  induction l with
  | nil =>
    intro _ _
    rfl
  | cons v rest ih =>
    intro hmem h
    simp only [placeholderFreeElems, Bool.and_eq_true] at h
    have h1 := hmem v (List.mem_cons_self v rest) h.1
    have h2 := ih (fun u hu => hmem u (List.mem_cons_of_mem v hu)) h.2
    simp only [replaceElems, h1, h2]

/-- Field-level helper for C8. -/
theorem replaceFields_ok_of_free (vars : Env) : ∀ l : List (String × Value),
    (∀ p ∈ l, placeholderFree p.2 = true →
      replacePlaceholders p.2 vars = .ok p.2) →
    placeholderFreeFields l = true → replaceFields l vars = .ok l := by
  intro l
  induction l with
  | nil =>
    intro _ _
    rfl
  | cons p rest ih =>
    intro hmem h
    obtain ⟨k, v⟩ := p
    simp only [placeholderFreeFields, Bool.and_eq_true] at h
    have h1 := hmem (k, v) (List.mem_cons_self _ rest) h.1
    have h2 := ih (fun u hu => hmem u (List.mem_cons_of_mem _ hu)) h.2
    simp only [replaceFields, h1, h2]

/-- C8: on a graph whose string leaves contain no placeholder match,
`replacePlaceholders` is the identity (hence idempotent), for every
environment. -/
theorem replacePlaceholders_identity_on_placeholder_free (v : Value)
    (vars : Env) (h : placeholderFree v = true) :
    replacePlaceholders v vars = .ok v := by
  induction v using Value.inductionOn with
  | hnull => rfl
  | hbool b => rfl
  | hnum n => rfl
  | hstr s =>
    simp only [placeholderFree, List.isEmpty_iff] at h
    simp only [replacePlaceholders, interpolateString_id vars s h]
  | harr l ih =>
    simp only [placeholderFree] at h
    simp only [replacePlaceholders, replaceElems_ok_of_free vars l ih h]
  | hobj l ih =>
    simp only [placeholderFree] at h
    simp only [replacePlaceholders, replaceFields_ok_of_free vars l ih h]

/-- C8 witness: a concrete placeholder-free graph is returned
unchanged. -/
theorem replacePlaceholders_identity_witness :
    replacePlaceholders
      (Value.obj [("a", Value.str "hello"), ("b", Value.arr [Value.num 1])])
      [] =
      .ok (Value.obj [("a", Value.str "hello"),
        ("b", Value.arr [Value.num 1])]) :=
  replacePlaceholders_identity_on_placeholder_free _ [] (by
    simp [placeholderFree, placeholderFreeFields, placeholderFreeElems,
      stringExprs_no_dollar])

/-- Rendering classification: the token stream errors — with the thrown
message naming an unresolved expression — exactly when some placeholder
body resolves to `undefined`, and succeeds otherwise. -/
theorem renderTokens_spec (vars : Env) : ∀ ts : List (Sum Char String),
    (((ts.filterMap (fun t =>
        match t with
        | .inr e => some e
        | .inl _ => none)).any
          (fun e => (resolveExpression e vars).isNone)) = true →
      ∃ e, resolveExpression e vars = none ∧
        renderTokens vars ts = .error (unresolvedMsg e)) ∧
    (((ts.filterMap (fun t =>
        match t with
        | .inr e => some e
        | .inl _ => none)).any
          (fun e => (resolveExpression e vars).isNone)) = false →
      ∃ s, renderTokens vars ts = .ok s) := by
  intro ts
  induction ts with
  | nil =>
    refine ⟨fun h => by simp at h, fun _ => ⟨"", rfl⟩⟩
  | cons t rest ih =>
    cases t with
    | inl c =>
      constructor
      · intro h
        simp only [List.filterMap_cons] at h
        obtain ⟨e, he, hr⟩ := ih.1 h
        exact ⟨e, he, by simp only [renderTokens, hr]⟩
      · intro h
        simp only [List.filterMap_cons] at h
        obtain ⟨s, hs⟩ := ih.2 h
        exact ⟨String.mk [c] ++ s, by simp only [renderTokens, hs]⟩
    | inr e =>
      constructor
      · intro h
        simp only [List.filterMap_cons, List.any_cons] at h
        cases hres : resolveExpression e vars with
        | none =>
          exact ⟨e, hres, by simp only [renderTokens, hres]⟩
        | some v =>
          rw [hres] at h
          simp only [Option.isNone_some, Bool.false_or] at h
          obtain ⟨e2, he2, hr⟩ := ih.1 h
          exact ⟨e2, he2, by simp only [renderTokens, hres, hr]⟩
      · intro h
        simp only [List.filterMap_cons, List.any_cons] at h
        cases hres : resolveExpression e vars with
        | none =>
          rw [hres] at h
          simp at h
        | some v =>
          rw [hres] at h
          simp only [Option.isNone_some, Bool.false_or] at h
          obtain ⟨s, hs⟩ := ih.2 h
          exact ⟨jsString v ++ s, by simp only [renderTokens, hres, hs]⟩

/-- Array-level helper for the interpolation classification. -/
theorem replaceElems_unresolved_spec (vars : Env) : ∀ l : List Value,
    (∀ v ∈ l,
      (hasUnresolved vars v = true →
        ∃ e, resolveExpression e vars = none ∧
          replacePlaceholders v vars = .error (unresolvedMsg e)) ∧
      (hasUnresolved vars v = false →
        ∃ w, replacePlaceholders v vars = .ok w)) →
    ((hasUnresolvedElems vars l = true →
      ∃ e, resolveExpression e vars = none ∧
        replaceElems l vars = .error (unresolvedMsg e)) ∧
    (hasUnresolvedElems vars l = false →
      ∃ ws, replaceElems l vars = .ok ws)) := by
  intro l
  induction l with
  | nil =>
    intro _
    refine ⟨fun h => by simp [hasUnresolvedElems] at h, fun _ => ⟨[], rfl⟩⟩
  | cons v rest ih =>
    intro hmem
    have hv := hmem v (List.mem_cons_self v rest)
    have hrest := ih (fun u hu => hmem u (List.mem_cons_of_mem v hu))
    constructor
    · intro h
      simp only [hasUnresolvedElems, Bool.or_eq_true] at h
      cases hvu : hasUnresolved vars v with
      | true =>
        obtain ⟨e, he, hr⟩ := hv.1 hvu
        exact ⟨e, he, by simp only [replaceElems, hr]⟩
      | false =>
        have h2 : hasUnresolvedElems vars rest = true := by
          rcases h with h1 | h1
          · rw [hvu] at h1
            simp at h1
          · exact h1
        obtain ⟨w, hw⟩ := hv.2 hvu
        obtain ⟨e, he, hr⟩ := hrest.1 h2
        exact ⟨e, he, by simp only [replaceElems, hw, hr]⟩
    · intro h
      simp only [hasUnresolvedElems, Bool.or_eq_false_iff] at h
      obtain ⟨w, hw⟩ := hv.2 h.1
      obtain ⟨ws, hws⟩ := hrest.2 h.2
      exact ⟨w :: ws, by simp only [replaceElems, hw, hws]⟩

/-- Object-level helper for the interpolation classification. -/
theorem replaceFields_unresolved_spec (vars : Env) :
    ∀ l : List (String × Value),
    (∀ p ∈ l,
      (hasUnresolved vars p.2 = true →
        ∃ e, resolveExpression e vars = none ∧
          replacePlaceholders p.2 vars = .error (unresolvedMsg e)) ∧
      (hasUnresolved vars p.2 = false →
        ∃ w, replacePlaceholders p.2 vars = .ok w)) →
    ((hasUnresolvedFields vars l = true →
      ∃ e, resolveExpression e vars = none ∧
        replaceFields l vars = .error (unresolvedMsg e)) ∧
    (hasUnresolvedFields vars l = false →
      ∃ l2, replaceFields l vars = .ok l2)) := by
  intro l
  induction l with
  | nil =>
    intro _
    refine ⟨fun h => by simp [hasUnresolvedFields] at h, fun _ => ⟨[], rfl⟩⟩
  | cons p rest ih =>
    intro hmem
    obtain ⟨k, v⟩ := p
    have hv := hmem (k, v) (List.mem_cons_self _ rest)
    have hrest := ih (fun u hu => hmem u (List.mem_cons_of_mem _ hu))
    constructor
    · intro h
      simp only [hasUnresolvedFields, Bool.or_eq_true] at h
      cases hvu : hasUnresolved vars v with
      | true =>
        obtain ⟨e, he, hr⟩ := hv.1 hvu
        exact ⟨e, he, by simp only [replaceFields, hr]⟩
      | false =>
        have h2 : hasUnresolvedFields vars rest = true := by
          rcases h with h1 | h1
          · rw [hvu] at h1
            simp at h1
          · exact h1
        obtain ⟨w, hw⟩ := hv.2 hvu
        obtain ⟨e, he, hr⟩ := hrest.1 h2
        exact ⟨e, he, by simp only [replaceFields, hw, hr]⟩
    · intro h
      simp only [hasUnresolvedFields, Bool.or_eq_false_iff] at h
      obtain ⟨w, hw⟩ := hv.2 h.1
      obtain ⟨l2, hl2⟩ := hrest.2 h.2
      exact ⟨(k, w) :: l2, by simp only [replaceFields, hw, hl2]⟩

/-- Full interpolation classification: `replacePlaceholders` fails —
with the thrown message naming an unresolved expression — exactly when
some placeholder occurrence in some string leaf is unresolved, and
succeeds otherwise. -/
theorem replacePlaceholders_spec (vars : Env) (v : Value) :
    (hasUnresolved vars v = true →
      ∃ e, resolveExpression e vars = none ∧
        replacePlaceholders v vars = .error (unresolvedMsg e)) ∧
    (hasUnresolved vars v = false →
      ∃ w, replacePlaceholders v vars = .ok w) := by
  induction v using Value.inductionOn with
  | hnull => exact ⟨fun h => by simp [hasUnresolved] at h, fun _ => ⟨_, rfl⟩⟩
  | hbool b => exact ⟨fun h => by simp [hasUnresolved] at h, fun _ => ⟨_, rfl⟩⟩
  | hnum n => exact ⟨fun h => by simp [hasUnresolved] at h, fun _ => ⟨_, rfl⟩⟩
  | hstr s =>
    have hspec := renderTokens_spec vars (scanTokens s.data)
    constructor
    · intro h
      simp only [hasUnresolved, stringExprs] at h
      obtain ⟨e, he, hr⟩ := hspec.1 h
      refine ⟨e, he, ?_⟩
      simp only [replacePlaceholders, interpolateString, hr]
    · intro h
      simp only [hasUnresolved, stringExprs] at h
      obtain ⟨s2, hs2⟩ := hspec.2 h
      exact ⟨.str s2, by simp only [replacePlaceholders, interpolateString, hs2]⟩
  | harr l ih =>
    have hspec := replaceElems_unresolved_spec vars l ih
    constructor
    · intro h
      simp only [hasUnresolved] at h
      obtain ⟨e, he, hr⟩ := hspec.1 h
      exact ⟨e, he, by simp only [replacePlaceholders, hr]⟩
    · intro h
      simp only [hasUnresolved] at h
      obtain ⟨ws, hws⟩ := hspec.2 h
      exact ⟨.arr ws, by simp only [replacePlaceholders, hws]⟩
  | hobj l ih =>
    have hspec := replaceFields_unresolved_spec vars l ih
    constructor
    · intro h
      simp only [hasUnresolved] at h
      obtain ⟨e, he, hr⟩ := hspec.1 h
      exact ⟨e, he, by simp only [replacePlaceholders, hr]⟩
    · intro h
      simp only [hasUnresolved] at h
      obtain ⟨l2, hl2⟩ := hspec.2 h
      exact ⟨.obj l2, by simp only [replacePlaceholders, hl2]⟩

/-- C3: whenever some placeholder occurrence inside some string leaf of
the graph resolves to `undefined`, the whole interpolation fails with
the thrown error naming an unresolved expression — no partial graph is
returned and no blank is substituted. -/
theorem replacePlaceholders_fails_on_unresolved (v : Value) (vars : Env)
    (h : hasUnresolved vars v = true) :
    ∃ e, resolveExpression e vars = none ∧
      replacePlaceholders v vars = .error (unresolvedMsg e) :=
  (replacePlaceholders_spec vars v).1 h

/-- C3 witness: the spec's example — interpolating a string referencing
a missing variable fails with the error naming it. -/
theorem replacePlaceholders_fails_on_unresolved_witness :
    hasUnresolved [] (Value.str "Hello $\x7bmissing\x7d") = true ∧
    (∃ e, resolveExpression e [] = none ∧
      replacePlaceholders (Value.str "Hello $\x7bmissing\x7d") [] =
        .error (unresolvedMsg e)) := by
  have hscan : scanTokens ("Hello $\x7bmissing\x7d").data =
      [.inl 'H', .inl 'e', .inl 'l', .inl 'l', .inl 'o', .inl ' ',
        .inr "missing"] := by
    rw [show ("Hello $\x7bmissing\x7d").data =
      'H' :: 'e' :: 'l' :: 'l' :: 'o' :: ' ' :: '$' :: '\x7b' ::
        ("missing\x7d").data from rfl]
    rw [scanTokens_eq_step 'H' _ (by intro r hc _; cases hc),
      scanTokens_eq_step 'e' _ (by intro r hc _; cases hc),
      scanTokens_eq_step 'l' _ (by intro r hc _; cases hc),
      scanTokens_eq_step 'l' _ (by intro r hc _; cases hc),
      scanTokens_eq_step 'o' _ (by intro r hc _; cases hc),
      scanTokens_eq_step ' ' _ (by intro r hc _; cases hc),
      scanTokens_eq_dollar (show findCloser ("missing\x7d").data =
        some ("missing".data, []) from rfl),
      scanTokens_eq_nil]
  have hhas : hasUnresolved [] (Value.str "Hello $\x7bmissing\x7d") = true := by
    simp only [hasUnresolved, stringExprs, hscan]
    rfl
  exact ⟨hhas, replacePlaceholders_fails_on_unresolved _ _ hhas⟩

/-- Interpolating an object is interpolating its value list: the keys
are copied verbatim and only the values pass through the interpolator. -/
theorem replaceFields_eq (vars : Env) : ∀ l : List (String × Value),
    replaceFields l vars =
      (match replaceElems (l.map Prod.snd) vars with
       | .error e => .error e
       | .ok vs => .ok ((l.map Prod.fst).zip vs)) := by
  intro l
  induction l with
  | nil => simp [replaceFields, replaceElems]
  | cons p rest ih =>
    obtain ⟨k, v⟩ := p
    simp only [replaceFields, List.map_cons, replaceElems]
    cases hv : replacePlaceholders v vars with
    | error e => rfl
    | ok v2 =>
      rw [ih]
      cases hr : replaceElems (rest.map Prod.snd) vars with
      | error e => rfl
      | ok vs => rfl

/-- C10: interpolation never rewrites mapping keys — on success the
output object carries exactly the input's key list, verbatim and in
order, with only the values interpolated; and whether interpolation of
an object succeeds is entirely independent of its keys, so a
placeholder inside a key is neither substituted nor a failure cause by
itself. -/
theorem replacePlaceholders_preserves_keys :
    (∀ (l : List (String × Value)) (vars : Env) (w : Value),
      replacePlaceholders (.obj l) vars = .ok w →
      ∃ ws, w = .obj ((l.map Prod.fst).zip ws) ∧
        replaceElems (l.map Prod.snd) vars = .ok ws) ∧
    (∀ (vs : List Value) (ks ks' : List String) (vars : Env),
      ks.length = vs.length → ks'.length = vs.length →
      exceptOk (replacePlaceholders (.obj (ks.zip vs)) vars) =
        exceptOk (replacePlaceholders (.obj (ks'.zip vs)) vars)) := by
  constructor
  · intro l vars w hok
    simp only [replacePlaceholders] at hok
    rw [replaceFields_eq vars l] at hok
    cases hr : replaceElems (l.map Prod.snd) vars with
    | error e =>
      rw [hr] at hok
      simp at hok
    | ok vs =>
      rw [hr] at hok
      simp only [Except.ok.injEq] at hok
      exact ⟨vs, hok.symm, rfl⟩
  · intro vs ks ks' vars hk hk'
    simp only [replacePlaceholders]
    rw [replaceFields_eq vars (ks.zip vs), replaceFields_eq vars (ks'.zip vs)]
    rw [List.map_snd_zip ks vs (le_of_eq hk.symm),
      List.map_snd_zip ks' vs (le_of_eq hk'.symm)]
    cases hr : replaceElems vs vars with
    | error e => rfl
    | ok ws => rfl

/-- C10 witness: a key that is itself a placeholder is copied verbatim
and causes no failure. -/
theorem replacePlaceholders_preserves_keys_witness :
    ∃ ws, Value.obj [("$\x7bmissing\x7d", Value.str "v")] =
        .obj ((["$\x7bmissing\x7d"] : List String).zip ws) ∧
      replaceElems [Value.str "v"] [] = .ok ws := by
  have hi : interpolateString [] "v" = .ok "v" := by
    unfold interpolateString
    rw [scanTokens_no_dollar _ (by decide), renderTokens_all_inl]
  have hobj : replacePlaceholders
      (Value.obj [("$\x7bmissing\x7d", Value.str "v")]) [] =
      .ok (Value.obj [("$\x7bmissing\x7d", Value.str "v")]) := by
    simp only [replacePlaceholders, replaceFields, hi]
  exact replacePlaceholders_preserves_keys.1 _ [] _ hobj

/-! ## Static validation classification (C4) -/

/-- Array-level helper for the static-validation classification. -/
theorem validateStaticElems_spec : ∀ l : List Value,
    (∀ v ∈ l,
      (validateStaticContent v = .ok () ↔
        hasPlaceholderLeaf v = false ∧ hasDirectiveNode v = false) ∧
      (∀ s, validateStaticContent v = .error (.placeholderInIncludedFile s) →
        hasPlaceholderLeaf v = true) ∧
      (∀ p, validateStaticContent v = .error (.nestedIncludeFound p) →
        hasDirectiveNode v = true)) →
    ((validateStaticElems l = .ok () ↔
      hasPlaceholderLeafElems l = false ∧ hasDirectiveNodeElems l = false) ∧
    (∀ s, validateStaticElems l = .error (.placeholderInIncludedFile s) →
      hasPlaceholderLeafElems l = true) ∧
    (∀ p, validateStaticElems l = .error (.nestedIncludeFound p) →
      hasDirectiveNodeElems l = true)) := by
  intro l
  induction l with
  | nil =>
    intro _
    refine ⟨?_, ?_, ?_⟩
    · simp [validateStaticElems, hasPlaceholderLeafElems, hasDirectiveNodeElems]
    · intro s h
      simp [validateStaticElems] at h
    · intro p h
      simp [validateStaticElems] at h
  | cons v rest ih =>
    intro hmem
    have hv := hmem v (List.mem_cons_self v rest)
    have hrest := ih (fun u hu => hmem u (List.mem_cons_of_mem v hu))
    cases hcv : validateStaticContent v with
    | ok u =>
      cases u
      have hvp := hv.1.mp hcv
      refine ⟨?_, ?_, ?_⟩
      · simp only [validateStaticElems, hcv, hasPlaceholderLeafElems,
          hasDirectiveNodeElems, hvp.1, hvp.2, Bool.false_or]
        exact hrest.1
      · intro s h
        simp only [validateStaticElems, hcv] at h
        simp only [hasPlaceholderLeafElems, hrest.2.1 s h, Bool.or_true]
      · intro p h
        simp only [validateStaticElems, hcv] at h
        simp only [hasDirectiveNodeElems, hrest.2.2 p h, Bool.or_true]
    | error e =>
      refine ⟨?_, ?_, ?_⟩
      · simp only [validateStaticElems, hcv]
        constructor
        · intro h
          cases h
        · rintro ⟨hp, hd⟩
          simp only [hasPlaceholderLeafElems, Bool.or_eq_false_iff] at hp
          simp only [hasDirectiveNodeElems, Bool.or_eq_false_iff] at hd
          cases e with
          | placeholderInIncludedFile s =>
            rw [hv.2.1 s hcv] at hp
            cases hp.1
          | nestedIncludeFound p =>
            rw [hv.2.2 p hcv] at hd
            cases hd.1
      · intro s h
        simp only [validateStaticElems, hcv] at h
        cases h
        simp only [hasPlaceholderLeafElems, hv.2.1 s hcv, Bool.true_or]
      · intro p h
        simp only [validateStaticElems, hcv] at h
        cases h
        simp only [hasDirectiveNodeElems, hv.2.2 p hcv, Bool.true_or]

/-- Object-level helper for the static-validation classification. -/
theorem validateStaticFields_spec : ∀ l : List (String × Value),
    (∀ q ∈ l,
      (validateStaticContent q.2 = .ok () ↔
        hasPlaceholderLeaf q.2 = false ∧ hasDirectiveNode q.2 = false) ∧
      (∀ s, validateStaticContent q.2 = .error (.placeholderInIncludedFile s) →
        hasPlaceholderLeaf q.2 = true) ∧
      (∀ p, validateStaticContent q.2 = .error (.nestedIncludeFound p) →
        hasDirectiveNode q.2 = true)) →
    ((validateStaticFields l = .ok () ↔
      hasPlaceholderLeafFields l = false ∧ hasDirectiveNodeFields l = false) ∧
    (∀ s, validateStaticFields l = .error (.placeholderInIncludedFile s) →
      hasPlaceholderLeafFields l = true) ∧
    (∀ p, validateStaticFields l = .error (.nestedIncludeFound p) →
      hasDirectiveNodeFields l = true)) := by
  intro l
  induction l with
  | nil =>
    intro _
    refine ⟨?_, ?_, ?_⟩
    · simp [validateStaticFields, hasPlaceholderLeafFields,
        hasDirectiveNodeFields]
    · intro s h
      simp [validateStaticFields] at h
    · intro p h
      simp [validateStaticFields] at h
  | cons q rest ih =>
    intro hmem
    obtain ⟨k, v⟩ := q
    have hv := hmem (k, v) (List.mem_cons_self _ rest)
    have hrest := ih (fun u hu => hmem u (List.mem_cons_of_mem _ hu))
    cases hcv : validateStaticContent v with
    | ok u =>
      cases u
      have hvp := hv.1.mp hcv
      refine ⟨?_, ?_, ?_⟩
      · simp only [validateStaticFields, hcv, hasPlaceholderLeafFields,
          hasDirectiveNodeFields, hvp.1, hvp.2, Bool.false_or]
        exact hrest.1
      · intro s h
        simp only [validateStaticFields, hcv] at h
        simp only [hasPlaceholderLeafFields, hrest.2.1 s h, Bool.or_true]
      · intro p h
        simp only [validateStaticFields, hcv] at h
        simp only [hasDirectiveNodeFields, hrest.2.2 p h, Bool.or_true]
    | error e =>
      refine ⟨?_, ?_, ?_⟩
      · simp only [validateStaticFields, hcv]
        constructor
        · intro h
          cases h
        · rintro ⟨hp, hd⟩
          simp only [hasPlaceholderLeafFields, Bool.or_eq_false_iff] at hp
          simp only [hasDirectiveNodeFields, Bool.or_eq_false_iff] at hd
          cases e with
          | placeholderInIncludedFile s =>
            rw [hv.2.1 s hcv] at hp
            cases hp.1
          | nestedIncludeFound p =>
            rw [hv.2.2 p hcv] at hd
            cases hd.1
      · intro s h
        simp only [validateStaticFields, hcv] at h
        cases h
        simp only [hasPlaceholderLeafFields, hv.2.1 s hcv, Bool.true_or]
      · intro p h
        simp only [validateStaticFields, hcv] at h
        cases h
        simp only [hasDirectiveNodeFields, hv.2.2 p hcv, Bool.true_or]

/-- Full classification of `validateStaticContent`: success is exactly
the absence of both marker leaves and directive nodes, a
placeholder-tagged failure implies a marker leaf exists, and a
nested-include-tagged failure implies a directive node exists. -/
theorem validateStatic_spec (v : Value) :
    (validateStaticContent v = .ok () ↔
      hasPlaceholderLeaf v = false ∧ hasDirectiveNode v = false) ∧
    (∀ s, validateStaticContent v = .error (.placeholderInIncludedFile s) →
      hasPlaceholderLeaf v = true) ∧
    (∀ p, validateStaticContent v = .error (.nestedIncludeFound p) →
      hasDirectiveNode v = true) := by
  induction v using Value.inductionOn with
  | hnull =>
    refine ⟨by simp [validateStaticContent, hasPlaceholderLeaf, hasDirectiveNode],
      ?_, ?_⟩ <;> intro x h <;> simp [validateStaticContent] at h
  | hbool b =>
    refine ⟨by simp [validateStaticContent, hasPlaceholderLeaf, hasDirectiveNode],
      ?_, ?_⟩ <;> intro x h <;> simp [validateStaticContent] at h
  | hnum n =>
    refine ⟨by simp [validateStaticContent, hasPlaceholderLeaf, hasDirectiveNode],
      ?_, ?_⟩ <;> intro x h <;> simp [validateStaticContent] at h
  | hstr s =>
    cases hdb : hasDollarBrace s with
    | true =>
      refine ⟨?_, ?_, ?_⟩
      · simp [validateStaticContent, hasPlaceholderLeaf, hdb]
      · intro x h
        simp [hasPlaceholderLeaf, hdb]
      · intro p h
        simp only [validateStaticContent, hdb, if_true] at h
        cases h
    | false =>
      refine ⟨?_, ?_, ?_⟩
      · simp [validateStaticContent, hasPlaceholderLeaf, hasDirectiveNode, hdb]
      · intro x h
        simp [validateStaticContent, hdb] at h
      · intro p h
        simp [validateStaticContent, hdb] at h
  | harr l ih =>
    have hspec := validateStaticElems_spec l ih
    refine ⟨?_, ?_, ?_⟩
    · simpa only [validateStaticContent, hasPlaceholderLeaf,
        hasDirectiveNode] using hspec.1
    · intro s h
      simp only [validateStaticContent] at h
      simpa only [hasPlaceholderLeaf] using hspec.2.1 s h
    · intro p h
      simp only [validateStaticContent] at h
      simpa only [hasDirectiveNode] using hspec.2.2 p h
  | hobj l ih =>
    cases hdir : isIncludeDirective (.obj l) with
    | true =>
      refine ⟨?_, ?_, ?_⟩
      · simp only [validateStaticContent, hdir, if_true, hasDirectiveNode,
          Bool.true_or]
        constructor
        · intro h
          cases h
        · rintro ⟨-, hd⟩
          cases hd
      · intro s h
        simp only [validateStaticContent, hdir, if_true] at h
        cases h
      · intro p h
        simp only [hasDirectiveNode, hdir, Bool.true_or]
    | false =>
      have hspec := validateStaticFields_spec l ih
      refine ⟨?_, ?_, ?_⟩
      · simpa only [validateStaticContent, hdir, if_false, hasPlaceholderLeaf,
          hasDirectiveNode, Bool.false_or] using hspec.1
      · intro s h
        simp only [validateStaticContent, hdir, if_false] at h
        simpa only [hasPlaceholderLeaf] using hspec.2.1 s h
      · intro p h
        simp only [validateStaticContent, hdir, if_false] at h
        simpa only [hasDirectiveNode, hdir, Bool.false_or] using hspec.2.2 p h

/-- C4 (amended): static validation of included content succeeds exactly
when no string leaf contains the marker and no node is an include
directive; when only marker leaves are present the failure is tagged
`PlaceholderInIncludedFile`, and when only directive nodes are present
it is tagged `NestedIncludeFound`.  (When both are present the tag is
decided by traversal order — the directive test precedes descent into
children — so the original claim's unconditional tag assignment fails,
see `validateStatic_placeholder_tag_cex`.) -/
theorem validateStatic_error_classification (v : Value) :
    (validateStaticContent v = .ok () ↔
      hasPlaceholderLeaf v = false ∧ hasDirectiveNode v = false) ∧
    (hasPlaceholderLeaf v = true ∧ hasDirectiveNode v = false →
      isPlaceholderErr (validateStaticContent v) = true) ∧
    (hasDirectiveNode v = true ∧ hasPlaceholderLeaf v = false →
      isNestedErr (validateStaticContent v) = true) := by
  have hs := validateStatic_spec v
  refine ⟨hs.1, ?_, ?_⟩
  · rintro ⟨hp, hd⟩
    cases hval : validateStaticContent v with
    | ok u =>
      cases u
      have := hs.1.mp hval
      rw [this.1] at hp
      cases hp
    | error e =>
      cases e with
      | placeholderInIncludedFile s => rfl
      | nestedIncludeFound p =>
        rw [hs.2.2 p hval] at hd
        cases hd
  · rintro ⟨hd, hp⟩
    cases hval : validateStaticContent v with
    | ok u =>
      cases u
      have := hs.1.mp hval
      rw [this.2] at hd
      cases hd
    | error e =>
      cases e with
      | placeholderInIncludedFile s =>
        rw [hs.2.1 s hval] at hp
        cases hp
      | nestedIncludeFound p => rfl

/-- C4 witness: content whose only violation is a marker leaf fails
with the placeholder tag. -/
theorem validateStatic_error_classification_witness :
    isPlaceholderErr (validateStaticContent (Value.str "hi $\x7bname\x7d")) =
      true :=
  (validateStatic_error_classification _).2.1
    ⟨by simp only [hasPlaceholderLeaf]; rfl, by simp only [hasDirectiveNode]⟩

/-- C4 counterexample: in `\x7binclude: "$\x7bx\x7d"\x7d` a string leaf
contains the marker, yet validation reports `NestedIncludeFound`, not
`PlaceholderInIncludedFile` — the directive test fires first. -/
theorem validateStatic_placeholder_tag_cex :
    hasPlaceholderLeaf (Value.obj [("include", Value.str "$\x7bx\x7d")]) =
      true ∧
    isPlaceholderErr (validateStaticContent
      (Value.obj [("include", Value.str "$\x7bx\x7d")])) = false := by
  constructor
  · simp only [hasPlaceholderLeaf, hasPlaceholderLeafFields]
    rfl
  · simp only [validateStaticContent,
      show isIncludeDirective (Value.obj [("include", Value.str "$\x7bx\x7d")]) =
        true from rfl, if_true]
    rfl

/-! ## Path normalisation lemmas and workspace confinement (C2, C9) -/

theorem splitOnSlash_slash (b : List Char) :
    splitOnSlash ('/' :: b) = [] :: splitOnSlash b := by
  simp [splitOnSlash]

theorem splitOnSlash_seg (a : List Char) (b : List Char)
    (ha : ∀ c ∈ a, c ≠ '/') :
    splitOnSlash (a ++ '/' :: b) = a :: splitOnSlash b := by
  induction a with
  | nil => exact splitOnSlash_slash b
  | cons c a2 ih =>
    have hc : c ≠ '/' := ha c (List.mem_cons_self c a2)
    have ih2 := ih (fun u hu => ha u (List.mem_cons_of_mem c hu))
    simp only [List.cons_append, splitOnSlash, if_neg (by simpa using hc)]
    rw [show a2.append ('/' :: b) = a2 ++ '/' :: b from rfl, ih2]

theorem dotsPath_data (k : Nat) (s : String) :
    (dotsPath (k + 1) s).data = '.' :: '.' :: '/' :: (dotsPath k s).data := by
  show ("../" ++ dotsPath k s).data = _
  rw [String.data_append]
  rfl

theorem splitOnSlash_dots (k : Nat) (s : String) :
    splitOnSlash ((dotsPath k s).data) =
      List.replicate k ['.', '.'] ++ splitOnSlash s.data := by
  induction k with
  | zero => rfl
  | succ m ih =>
    rw [dotsPath_data]
    rw [show ('.' :: '.' :: '/' :: (dotsPath m s).data) =
      (['.', '.'] ++ '/' :: (dotsPath m s).data) from rfl]
    rw [splitOnSlash_seg ['.', '.'] _ (by decide), ih]
    rfl

theorem normStep_dotdot_nil : normStep false [] ".." = [] := by
  simp [normStep]

theorem foldl_normStep_dots_nil (m : Nat) :
    List.foldl (normStep false) [] (List.replicate m "..") = [] := by
  induction m with
  | zero => rfl
  | succ n ih =>
    rw [List.replicate_succ, List.foldl_cons, normStep_dotdot_nil, ih]

/-- Resolving any positive number of parent-directory steps followed by
`etc/passwd` against workspace root `/ws` lands on `/etc/passwd`. -/
theorem resolvePosix_ws_dots (m : Nat) :
    resolvePosix "/" ["/ws", dotsPath (m + 1) "etc/passwd"] = "/etc/passwd" := by
  have hne : dotsPath (m + 1) "etc/passwd" ≠ "" := by
    intro h
    have hd := congrArg String.data h
    rw [dotsPath_data] at hd
    cases hd
  have hhead : (dotsPath (m + 1) "etc/passwd").data.head? = some '.' := by
    rw [dotsPath_data]
    rfl
  have hpick : pickAbsSuffix "/" [dotsPath (m + 1) "etc/passwd", "/ws"] =
      [dotsPath (m + 1) "etc/passwd", "/ws"] := by
    unfold pickAbsSuffix
    rw [if_neg hne, if_neg (by rw [hhead]; decide)]
    rfl
  have hsegs : pathSegs ("/ws" ++ "/" ++ dotsPath (m + 1) "etc/passwd") =
      "" :: "ws" :: (List.replicate (m + 1) ".." ++ ["etc", "passwd"]) := by
    unfold pathSegs
    rw [show ("/ws" ++ "/" ++ dotsPath (m + 1) "etc/passwd").data =
        '/' :: (['w', 's'] ++ '/' :: (dotsPath (m + 1) "etc/passwd").data) from by
      rw [String.data_append, String.data_append]
      rfl]
    rw [splitOnSlash_slash, splitOnSlash_seg ['w', 's'] _ (by decide),
      splitOnSlash_dots]
    rw [show splitOnSlash ("etc/passwd").data =
      [['e', 't', 'c'], ['p', 'a', 's', 's', 'w', 'd']] from rfl]
    simp [List.map_append, List.map_replicate]
  have hfold : normSegs false
      ("" :: "ws" :: (List.replicate (m + 1) ".." ++ ["etc", "passwd"])) =
      ["etc", "passwd"] := by
    unfold normSegs
    rw [List.foldl_cons, List.foldl_cons]
    rw [show normStep false (normStep false [] "") "ws" = ["ws"] from by decide]
    rw [List.foldl_append]
    rw [show List.foldl (normStep false) ["ws"]
        (List.replicate (m + 1) "..") = [] from by
      rw [List.replicate_succ, List.foldl_cons,
        show normStep false ["ws"] ".." = [] from by decide,
        foldl_normStep_dots_nil]]
    decide
  unfold resolvePosix
  rw [show ([("/ws" : String), dotsPath (m + 1) "etc/passwd"]).reverse =
    [dotsPath (m + 1) "etc/passwd", "/ws"] from by simp]
  rw [hpick]
  rw [show ([dotsPath (m + 1) "etc/passwd", ("/ws" : String)]).reverse =
    ["/ws", dotsPath (m + 1) "etc/passwd"] from by simp]
  rw [show joinWith "/" ["/ws", dotsPath (m + 1) "etc/passwd"] =
    "/ws" ++ "/" ++ dotsPath (m + 1) "etc/passwd" from by simp [joinWith]]
  rw [hsegs, hfold]
  rfl

/-- C2: include loading rejects, with `SecurityViolation`, every request
whose normalised resolved path neither equals the normalised workspace
root nor extends it past a separator (`outsideWorkspace` packages
exactly that check over the source's `path.resolve`/`path.normalize`);
in particular, for workspace root `/ws`, a request of any positive
number of `..` steps followed by `etc/passwd` is rejected this way, for
every filesystem and parser. -/
theorem include_confinement_rejects_escapes :
    (∀ (parseYaml : String → Except String Value) (fs : FileSys)
        (filepath baseDirPath : String),
      outsideWorkspace filepath baseDirPath = true →
      loadAndValidateIncludedContent parseYaml fs filepath baseDirPath =
        .error (.securityViolation filepath)) ∧
    (∀ (parseYaml : String → Except String Value) (fs : FileSys) (k : Nat),
      1 ≤ k →
      loadAndValidateIncludedContent parseYaml fs (dotsPath k "etc/passwd")
        "/ws" = .error (.securityViolation (dotsPath k "etc/passwd"))) := by
  have hgen : ∀ (parseYaml : String → Except String Value) (fs : FileSys)
      (filepath baseDirPath : String),
      outsideWorkspace filepath baseDirPath = true →
      loadAndValidateIncludedContent parseYaml fs filepath baseDirPath =
        .error (.securityViolation filepath) := by
    intro parseYaml fs filepath baseDirPath h
    unfold loadAndValidateIncludedContent
    rw [if_pos h]
  refine ⟨hgen, ?_⟩
  intro parseYaml fs k hk
  apply hgen
  obtain ⟨m, rfl⟩ : ∃ m, k = m + 1 := ⟨k - 1, by omega⟩
  unfold outsideWorkspace includeFullPath
  rw [show resolvePosix "/" ["/ws"] = "/ws" from rfl]
  rw [resolvePosix_ws_dots m]
  rfl

/-- C2 witness: the spec's `../../etc/passwd` example is rejected with
`SecurityViolation` on an empty filesystem. -/
theorem include_confinement_rejects_escapes_witness :
    loadAndValidateIncludedContent (fun _ => Except.ok Value.null)
      (fun _ => none) (dotsPath 2 "etc/passwd") "/ws" =
      .error (.securityViolation (dotsPath 2 "etc/passwd")) :=
  include_confinement_rejects_escapes.2 _ _ 2 (by decide)

/-- C9: the confinement check runs before the existence check — a
request resolving outside the workspace fails with `SecurityViolation`
on any filesystem, in particular one on which no file exists; and an
`IncludeNotFound` failure can only arise for a request that passed the
confinement check. -/
theorem include_security_before_existence :
    (∀ (parseYaml : String → Except String Value) (fs : FileSys)
        (filepath baseDirPath : String),
      outsideWorkspace filepath baseDirPath = true →
      loadAndValidateIncludedContent parseYaml fs filepath baseDirPath =
        loadAndValidateIncludedContent parseYaml (fun _ => none) filepath
          baseDirPath ∧
      loadAndValidateIncludedContent parseYaml (fun _ => none) filepath
          baseDirPath = .error (.securityViolation filepath)) ∧
    (∀ (parseYaml : String → Except String Value) (fs : FileSys)
        (filepath baseDirPath m : String),
      loadAndValidateIncludedContent parseYaml fs filepath baseDirPath =
        .error (.includeNotFound m) →
      outsideWorkspace filepath baseDirPath = false) := by
  constructor
  · intro parseYaml fs filepath baseDirPath h
    constructor
    · unfold loadAndValidateIncludedContent
      rw [if_pos h, if_pos h]
    · unfold loadAndValidateIncludedContent
      rw [if_pos h]
  · intro parseYaml fs filepath baseDirPath m h
    cases hout : outsideWorkspace filepath baseDirPath with
    | false => rfl
    | true =>
      unfold loadAndValidateIncludedContent at h
      rw [if_pos hout] at h
      cases h

/-- C9 witness: an escaping request on an empty filesystem fails with
`SecurityViolation`, not `IncludeNotFound`. -/
theorem include_security_before_existence_witness :
    loadAndValidateIncludedContent (fun _ => Except.ok Value.null)
      (fun _ => none) "../secret.yaml" "/ws" =
      .error (.securityViolation "../secret.yaml") :=
  (include_security_before_existence.1 (fun _ => Except.ok Value.null)
    (fun _ => none) "../secret.yaml" "/ws" (by decide)).2

/-! ## Pipeline staging (C1) -/

/-- C1: the pipeline runs its four stages in the fixed order parsing →
variable-replacement → include-processing → validation; the first stage
to fail determines the result: a `failure` carrying that stage's tag
and message, computed without consulting any later stage; when all four
succeed the result is `success` carrying exactly the stage-4 graph; and
every pipeline result is one of the two variants, with the failure tag
always one of the four stage tags. -/
theorem parseYamlContent_stage_semantics :
    (∀ (parseYaml : String → Except String Value) (fs : FileSys) (vars : Env)
        (content docDirPath : String) (e : String),
      parseYaml content = .error e →
      parseYamlContent parseYaml fs vars content docDirPath =
        .failure "parsing" ("YAML syntax error: " ++ e)) ∧
    (∀ (parseYaml : String → Except String Value) (fs : FileSys) (vars : Env)
        (content docDirPath : String) (d : Value) (e : String),
      parseYaml content = .ok d →
      replacePlaceholders d vars = .error e →
      parseYamlContent parseYaml fs vars content docDirPath =
        .failure "variable-replacement" ("Variable resolution error: " ++ e)) ∧
    (∀ (parseYaml : String → Except String Value) (fs : FileSys) (vars : Env)
        (content docDirPath : String) (d r : Value) (err : IncludeError),
      parseYaml content = .ok d →
      replacePlaceholders d vars = .ok r →
      processIncludes parseYaml fs r docDirPath = .error err →
      parseYamlContent parseYaml fs vars content docDirPath =
        .failure "include-processing"
          ("Include processing error: " ++ err.message)) ∧
    (∀ (parseYaml : String → Except String Value) (fs : FileSys) (vars : Env)
        (content docDirPath : String) (d r c : Value),
      parseYaml content = .ok d →
      replacePlaceholders d vars = .ok r →
      processIncludes parseYaml fs r docDirPath = .ok c →
      isYamlWorkflowDocument c = false →
      parseYamlContent parseYaml fs vars content docDirPath =
        .failure "validation" validationFailureMsg) ∧
    (∀ (parseYaml : String → Except String Value) (fs : FileSys) (vars : Env)
        (content docDirPath : String) (d r c : Value),
      parseYaml content = .ok d →
      replacePlaceholders d vars = .ok r →
      processIncludes parseYaml fs r docDirPath = .ok c →
      isYamlWorkflowDocument c = true →
      parseYamlContent parseYaml fs vars content docDirPath = .success c) ∧
    (∀ (parseYaml : String → Except String Value) (fs : FileSys) (vars : Env)
        (content docDirPath : String),
      (∃ d, parseYamlContent parseYaml fs vars content docDirPath =
        .success d) ∨
      (∃ ph msg, parseYamlContent parseYaml fs vars content docDirPath =
          .failure ph msg ∧
        (ph = "parsing" ∨ ph = "variable-replacement" ∨
          ph = "include-processing" ∨ ph = "validation"))) := by
  refine ⟨?_, ?_, ?_, ?_, ?_, ?_⟩
  · intro parseYaml fs vars content docDirPath e h1
    simp [parseYamlContent, h1]
  · intro parseYaml fs vars content docDirPath d e h1 h2
    simp [parseYamlContent, h1, h2]
  · intro parseYaml fs vars content docDirPath d r err h1 h2 h3
    simp [parseYamlContent, h1, h2, h3]
  · intro parseYaml fs vars content docDirPath d r c h1 h2 h3 h4
    simp [parseYamlContent, h1, h2, h3, h4]
  · intro parseYaml fs vars content docDirPath d r c h1 h2 h3 h4
    simp [parseYamlContent, h1, h2, h3, h4]
  · intro parseYaml fs vars content docDirPath
    cases hp : parseYaml content with
    | error e =>
      exact Or.inr ⟨"parsing", "YAML syntax error: " ++ e,
        by simp [parseYamlContent, hp], Or.inl rfl⟩
    | ok d =>
      cases hr : replacePlaceholders d vars with
      | error e =>
        exact Or.inr ⟨"variable-replacement", "Variable resolution error: " ++ e,
          by simp [parseYamlContent, hp, hr], Or.inr (Or.inl rfl)⟩
      | ok r =>
        cases hi : processIncludes parseYaml fs r docDirPath with
        | error err =>
          exact Or.inr ⟨"include-processing",
            "Include processing error: " ++ err.message,
            by simp [parseYamlContent, hp, hr, hi],
            Or.inr (Or.inr (Or.inl rfl))⟩
        | ok c =>
          cases hv : isYamlWorkflowDocument c with
          | true =>
            exact Or.inl ⟨c, by simp [parseYamlContent, hp, hr, hi, hv]⟩
          | false =>
            exact Or.inr ⟨"validation", validationFailureMsg,
              by simp [parseYamlContent, hp, hr, hi, hv],
              Or.inr (Or.inr (Or.inr rfl))⟩

/-- C1 witness: a stage-1 failure is tagged `parsing` with the wrapped
message. -/
theorem parseYamlContent_stage_semantics_witness :
    parseYamlContent (fun _ => Except.error "bad indent") (fun _ => none)
      [] "steps: [" "/ws" = .failure "parsing" "YAML syntax error: bad indent" :=
  parseYamlContent_stage_semantics.1 (fun _ => Except.error "bad indent")
    (fun _ => none) [] "steps: [" "/ws" "bad indent" rfl

end LangSrv
